import Mathlib

/-!
Verification of the quiz session engine in `src/app.js`.

JavaScript strings are modelled as `List Char` (`Str`), machine numbers as
`Int`/`Nat`, `NaN`-able results as `Option`, and thrown exceptions as `none` /
`Option` failure.  Randomized orderings (the comparator-based shuffles in the
source) are modelled as arbitrary permutation parameters, constrained by
`List.Perm` hypotheses in the theorems.  DOM side effects are modelled as
explicit effect records (what text is shown, whether the timer was started);
pure state mutations (`correctCount`, `wrongAnswers`, `answered`, the persisted
weak-id list) are modelled by explicit state passing.
-/

/-- JavaScript strings modelled as lists of characters. -/
abbrev Str := List Char

/-- Whitespace recognised by `String.prototype.trim` (the characters that occur
in this code base's data: space, tab, CR, LF). -/
def isWS (c : Char) : Bool := c = ' ' || c = '\t' || c = '\n' || c = '\r'

/-- `String.prototype.trim`: drop leading and trailing whitespace. -/
def trim (l : Str) : Str := ((l.dropWhile isWS).reverse.dropWhile isWS).reverse

/-- Value of a maximal leading run of decimal digits; `none` when there is no
leading digit (`parseInt` yields `NaN` there). -/
def digitsVal (t : Str) : Option Nat :=
  let ds := t.takeWhile Char.isDigit
  if ds.isEmpty then none else
    some (ds.foldl (fun acc d => acc * 10 + (d.toNat - 48)) 0)

/-- JavaScript `parseInt` on a string: skip leading whitespace, optional sign,
then the value of the maximal digit prefix; `none` models `NaN`.
(The hexadecimal `0x` prefix of `parseInt` is not modelled; under this model
such a field still parses, as `0`, so no claim distinguishes the two.) -/
def parseIntJS (s : Str) : Option Int :=
  match s.dropWhile isWS with
  | '-' :: rest => (digitsVal rest).map (fun n => -(n : Int))
  | '+' :: rest => (digitsVal rest).map (fun n => (n : Int))
  | t => (digitsVal t).map (fun n => (n : Int))

/-- The character loop of `loadCsv` (src/app.js lines 211-225): walk the line,
`"` toggles `inQuotes`, a comma outside quotes pushes the trimmed current
field, any other character is appended to the current field.  At the end the
final field is pushed only if the raw accumulator is non-empty
(`if (current) parts.push(current.trim())`). -/
def tokAux : Str → Str → Bool → List Str → List Str
  | [], current, _, parts => if current.isEmpty then parts else parts ++ [trim current]
  | c :: rest, current, inQuotes, parts =>
    if c = '"' then tokAux rest current (!inQuotes) parts
    else if c = ',' && !inQuotes then tokAux rest [] inQuotes (parts ++ [trim current])
    else tokAux rest (current ++ [c]) inQuotes parts

/-- Tokenize one CSV line as `loadCsv` does. -/
def tokenize (line : Str) : List Str := tokAux line [] false []

/-- Plain split of a character list on a separator character (reference
definition, used to restate what the tokenizer does on quote-free lines;
also models JavaScript `String.prototype.split` with a one-char separator). -/
def splitChar (sep : Char) : Str → List Str
  | [] => [[]]
  | c :: rest =>
    if c = sep then [] :: splitChar sep rest
    else
      match splitChar sep rest with
      | [] => [[c]]
      | s :: ss => (c :: s) :: ss

/-- Drop the last segment when it is empty (reference definition mirroring the
tokenizer's final `if (current)` guard). -/
def dropFinalEmpty (segs : List Str) : List Str :=
  match segs.getLast? with
  | some [] => segs.dropLast
  | _ => segs

/-- Reference reading of the tokenizer on quote-free lines, following the
spec's words: split on commas, trim every field, and (per the code's final
guard) drop a trailing field that is empty before trimming. -/
def refFields (l : Str) : List Str := (dropFinalEmpty (splitChar ',' l)).map trim

/-- A parsed vocabulary record (`loadCsv`, vocabulary branch). -/
structure VocabEntry where
  number : Int
  english : Str
  meanings : List Str
deriving DecidableEq

/-- A parsed grammar record (`loadCsv`, grammar branch). -/
structure GrammarEntry where
  number : Int
  question : Str
  correct : Str
  choices : List Str
  source : Str
  difficulty : Str
  explanation : Str
deriving DecidableEq

/-- One line of the vocabulary CSV (src/app.js lines 208-252, `isGrammar`
false): skip blank lines, tokenize, require an integer first field, keep
non-empty meanings, drop the line when none survive. -/
def parseVocabLine (line : Str) : Option VocabEntry :=
  if (trim line).isEmpty then none else
  let parts := tokenize line
  match parseIntJS (parts.getD 0 []) with
  | none => none
  | some num =>
    let meanings := (parts.drop 2).filter (fun m => !m.isEmpty)
    if meanings.isEmpty then none
    else some { number := num, english := parts.getD 1 [], meanings := meanings }

/-- One line of the grammar CSV (src/app.js lines 208-247, `isGrammar` true):
skip blank lines, tokenize, require an integer first field and at least six
fields; fields 3..5 are distractor slots with blanks filtered, and `choices`
is the correct answer followed by the surviving distractors. -/
def parseGrammarLine (line : Str) : Option GrammarEntry :=
  if (trim line).isEmpty then none else
  let parts := tokenize line
  match parseIntJS (parts.getD 0 []) with
  | none => none
  | some num =>
    if 6 ≤ parts.length then
      let correct := parts.getD 2 []
      let wrongChoices := ((parts.drop 3).take 3).filter (fun c => !c.isEmpty)
      some { number := num
           , question := parts.getD 1 []
           , correct := correct
           , choices := correct :: wrongChoices
           , source := parts.getD 6 []
           , difficulty := parts.getD 7 []
           , explanation := parts.getD 8 [] }
    else none

/-- The whole vocabulary parse of `loadCsv`: per-line, dropped lines never
abort the rest of the batch. -/
def loadCsvVocab (lines : List Str) : List VocabEntry := lines.filterMap parseVocabLine

/-- The whole grammar parse of `loadCsv`. -/
def loadCsvGrammar (lines : List Str) : List GrammarEntry := lines.filterMap parseGrammarLine

/-- A vocabulary answer option as built by `buildChoices` (src/app.js lines
341-344): the backing entry and its display text. -/
structure Choice where
  entry : VocabEntry
  display : Str
deriving DecidableEq

/-- Display text of a vocabulary entry (src/app.js line 342): join the
meanings with `、`, re-split on `、`, keep segments that are non-blank after
trimming, then show the first one or the first two joined by a slash. -/
def displayOf (e : VocabEntry) : Str :=
  let parts := (splitChar '、' (List.intercalate ['、'] e.meanings)).filter
    (fun s => !(trim s).isEmpty)
  if 1 < parts.length then (parts.getD 0 []) ++ " / ".data ++ (parts.getD 1 [])
  else parts.getD 0 []

/-- The distractor-collection loop of `buildChoices` (src/app.js lines
337-340): walk the shuffled candidates, stop at four picks, skip entries whose
id was already used. -/
def pickLoop : List VocabEntry → List VocabEntry → List Int → List VocabEntry
  | [], picks, _ => picks
  | c :: rest, picks, used =>
    if 4 ≤ picks.length then picks
    else if used.contains c.number then pickLoop rest picks used
    else pickLoop rest (picks ++ [c]) (used ++ [c.number])

/-- `buildChoices` for vocabulary, before the final display-order shuffle:
the correct entry plus distinct-id distractors drawn from the (already
shuffled) candidate list, mapped to display options.  The two random shuffles
of the source are the `shuffledCands` parameter and a permutation hypothesis
on the final option list in the theorems. -/
def vocabChoiceList (entry : VocabEntry) (shuffledCands : List VocabEntry) : List Choice :=
  (pickLoop shuffledCands [entry] [entry.number]).map (fun e => ⟨e, displayOf e⟩)

/-- `slice(0, count)` of JavaScript on an already-shuffled array: a negative
`count` counts back from the end, otherwise take the first `count` elements. -/
def jsTake (l : List α) (count : Int) : List α :=
  if count < 0 then l.take ((l.length : Int) + count).toNat else l.take count.toNat

/-- Requested session size (src/app.js line 567): `isNaN(countInput) ? 20 :
countInput`, with `none` modelling `NaN`. -/
def sessionCount (countInput : Option Int) : Int :=
  match countInput with
  | none => 20
  | some c => c

/-- The vocabulary filter chain of `startBtn.onclick` (src/app.js lines
555-564): weak-mode membership filter, otherwise the two sequential range
filters (absent or non-numeric bounds impose no constraint). -/
def filteredVocab (entries : List VocabEntry) (weakMode : Bool) (weakIds : List Int)
    (s e : Option Int) : List VocabEntry :=
  if weakMode then entries.filter (fun item => item.number ∈ weakIds)
  else
    let d1 := match s with
      | some sv => entries.filter (fun item => sv ≤ item.number)
      | none => entries
    match e with
    | some ev => d1.filter (fun item => item.number ≤ ev)
    | none => d1

/-- The active vocabulary filter predicate, as the spec states it. -/
def vocabPred (weakMode : Bool) (weakIds : List Int) (s e : Option Int)
    (item : VocabEntry) : Prop :=
  if weakMode then item.number ∈ weakIds
  else (∀ sv, s = some sv → sv ≤ item.number) ∧ (∀ ev, e = some ev → item.number ≤ ev)

/-- `difficultyMap` of `grammarStartBtn.onclick` (src/app.js line 605):
basic/standard/advanced map to tier strings, anything else is undefined. -/
def difficultyMap (sel : Str) : Option Str :=
  if sel = "basic".data then some "1".data
  else if sel = "standard".data then some "2".data
  else if sel = "advanced".data then some "3".data
  else none

/-- The grammar difficulty filter (src/app.js lines 605-609): filter only when
the selection maps to a tier string. -/
def filteredGrammar (entries : List GrammarEntry) (sel : Str) : List GrammarEntry :=
  match difficultyMap sel with
  | some t => entries.filter (fun item => item.difficulty = t)
  | none => entries

/-- The active grammar filter predicate, as the spec states it. -/
def grammarPred (sel : Str) (item : GrammarEntry) : Prop :=
  ∀ t, difficultyMap sel = some t → item.difficulty = t

/-- Session construction of `startBtn.onclick` (src/app.js lines 554-569):
filter, fail on an empty weak set, slice the shuffled list to `count`, fail on
an empty result.  `none` models the thrown errors; `shuffled` is the result of
the random in-place sort, constrained to a permutation in the theorems. -/
def buildVocabSession (entries : List VocabEntry) (weakMode : Bool) (weakIds : List Int)
    (s e : Option Int) (count : Int) (shuffled : List VocabEntry) :
    Option (List VocabEntry) :=
  let data := filteredVocab entries weakMode weakIds s e
  if weakMode && data.isEmpty then none
  else
    let qs := jsTake shuffled count
    if qs.isEmpty then none else some qs

/-- Session construction of `grammarStartBtn.onclick` (src/app.js lines
604-621): difficulty filter, fail when empty, slice the shuffled list, fail
when empty. -/
def buildGrammarSession (entries : List GrammarEntry) (sel : Str) (count : Int)
    (shuffled : List GrammarEntry) : Option (List GrammarEntry) :=
  let data := filteredGrammar entries sel
  if data.isEmpty then none
  else
    let qs := jsTake shuffled count
    if qs.isEmpty then none else some qs

/-- One missed-list element of `wrongAnswers`: the source pushes
`{english, meaning}` in vocabulary mode and `{question, correct}` in grammar
mode into the same array; the heterogeneous objects are modelled as a sum. -/
inductive Wrong
  | vocab (english : Str) (meaning : Str)
  | grammar (question : Str) (correct : Str)
deriving DecidableEq

/-- The mutable quiz state touched by `handleAnswer` (src/app.js lines
29-40): current position, score, missed list, the per-question graded flag,
and the persisted weak-id list. -/
structure QuizState where
  currentIndex : Nat
  correctCount : Nat
  wrongAnswers : List Wrong
  answered : Bool
  weakIds : List Int
deriving DecidableEq

/-- Weak-id insertion of `handleAnswer` (src/app.js lines 299-300): push the
id only when not already present. -/
def weakAdd (weakIds : List Int) (n : Int) : List Int :=
  if weakIds.contains n then weakIds else weakIds ++ [n]

/-- `currentChoicesData[idx]` with the `-1` timeout sentinel: a negative index
selects nothing. -/
def selectedChoice (choices : List Choice) (idx : Int) : Option Choice :=
  if idx < 0 then none else choices[idx.toNat]?

/-- `currentChoicesData[idx]` for grammar mode (plain strings). -/
def grammarSelected (choices : List Str) (idx : Int) : Option Str :=
  if idx < 0 then none else choices[idx.toNat]?

/-- Display text recorded for a missed vocabulary question (src/app.js lines
290 and 296): the display of the first option backed by the current entry.
(The source indexes with `findIndex`; when no option is backed by the entry it
faults, so the `[]` default is never reached on inputs built by
`buildChoices`.) -/
def correctChoiceDisplay (choices : List Choice) (entry : VocabEntry) : Str :=
  match choices.find? (fun c => c.entry = entry) with
  | some c => c.display
  | none => []

/-- `handleAnswer` (src/app.js lines 264-305), vocabulary branch: a no-op when
already graded; otherwise mark graded and either increment the score (selected
option backed by the current entry) or append to the missed list and insert
the id into the weak list.  `idx = -1` is the timeout sentinel. -/
def handleAnswerVocab (idx : Int) (choices : List Choice) (entry : VocabEntry)
    (st : QuizState) : QuizState :=
  if st.answered then st
  else if (match selectedChoice choices idx with
           | some c => decide (c.entry = entry)
           | none => false) then
    { st with answered := true, correctCount := st.correctCount + 1 }
  else
    { st with answered := true
            , wrongAnswers := st.wrongAnswers ++
                [Wrong.vocab entry.english (correctChoiceDisplay choices entry)]
            , weakIds := weakAdd st.weakIds entry.number }

/-- `handleAnswer` (src/app.js lines 270-287), grammar branch: as above but
correctness is string equality with `entry.correct`, the missed element is
`{question, correct}`, and the weak list is untouched. -/
def handleAnswerGrammar (idx : Int) (choices : List Str) (entry : GrammarEntry)
    (st : QuizState) : QuizState :=
  if st.answered then st
  else if (match grammarSelected choices idx with
           | some sel => decide (sel = entry.correct)
           | none => false) then
    { st with answered := true, correctCount := st.correctCount + 1 }
  else
    { st with answered := true
            , wrongAnswers := st.wrongAnswers ++ [Wrong.grammar entry.question entry.correct] }

/-- Effect of `startTimer` (src/app.js lines 310-320) on the timer: with a
non-positive limit the bar is hidden and no interval is started, otherwise the
bar is shown and the interval runs. -/
structure TimerEffect where
  started : Bool
  barHidden : Bool
deriving DecidableEq

def startTimerEff (timeLimit : Int) : TimerEffect :=
  if timeLimit ≤ 0 then { started := false, barHidden := true }
  else { started := true, barHidden := false }

/-- Presentation effects of `loadQuestion` (src/app.js lines 375-458) that the
claims observe: shown texts, whether speech was requested, whether the timer
bar is hidden and whether the per-question timer interval was started. -/
structure LoadEffect where
  questionText : Str
  sourceShown : Option Str
  choiceTexts : List Str
  timerStarted : Bool
  timerBarHidden : Bool
  spokenText : Option Str
deriving DecidableEq

/-- `loadQuestion`, grammar branch (src/app.js lines 416-438): show the
question and optional source, show the shuffled option strings, hide the timer
bar and never call `startTimer`. -/
def loadQuestionEffGrammar (g : GrammarEntry) (shuffledChoices : List Str) : LoadEffect :=
  { questionText := g.question
  , sourceShown := if (trim g.source).isEmpty then none else some g.source
  , choiceTexts := shuffledChoices
  , timerStarted := false
  , timerBarHidden := true
  , spokenText := none }

/-- `loadQuestion`, vocabulary branch (src/app.js lines 439-457): show the
word, speak it, and start the timer via `startTimer`. -/
def loadQuestionEffVocab (v : VocabEntry) (choicesData : List Choice)
    (timeLimit : Int) : LoadEffect :=
  { questionText := v.english
  , sourceShown := none
  , choiceTexts := choicesData.map Choice.display
  , timerStarted := (startTimerEff timeLimit).started
  , timerBarHidden := (startTimerEff timeLimit).barHidden
  , spokenText := some v.english }

/-- One unsigned JSON integer numeral, per the JSON number grammar: a lone
`0`, or a nonzero digit followed by digits; a leading zero before another
digit is not a JSON numeral.  Returns the value and the unconsumed rest. -/
def jsonNatTok (l : Str) : Option (Nat × Str) :=
  match l with
  | [] => none
  | '0' :: rest =>
    match rest with
    | [] => some (0, [])
    | c :: _ => if c.isDigit then none else some (0, rest)
  | c :: rest =>
    if c.isDigit then
      some ((c :: rest.takeWhile Char.isDigit).foldl
              (fun acc d => acc * 10 + (d.toNat - 48)) 0,
            rest.dropWhile Char.isDigit)
    else none

/-- One JSON integer token: optional minus sign and a JSON integer numeral. -/
def jsonIntTok (l : Str) : Option (Int × Str) :=
  match l with
  | '-' :: rest => (jsonNatTok rest).map (fun p => (-(p.1 : Int), p.2))
  | _ => (jsonNatTok l).map (fun p => ((p.1 : Int), p.2))

/-- Element loop of the JSON array parse (fuel-indexed). -/
def jsonIntsAux : Nat → Str → List Int → Option (List Int)
  | 0, _, _ => none
  | fuel + 1, l, acc =>
    match jsonIntTok l with
    | none => none
    | some (n, rest) =>
      match rest.dropWhile isWS with
      | ']' :: rest2 =>
        if (rest2.dropWhile isWS).isEmpty then some (acc ++ [n]) else none
      | ',' :: rest2 => jsonIntsAux fuel (rest2.dropWhile isWS) (acc ++ [n])
      | _ => none

/-- Modelled from the spec: `JSON.parse` as used on the persisted weak-items
value.  The platform built-in is not part of the repository; it is modelled
partially: `some l` exactly on texts that spell a JSON array of integers —
the only values this program ever stores — and `none` on every other text.
`none` does not by itself mean the built-in throws: it stands indifferently
for a `SyntaxError` or for a successful parse to some other JSON value, so a
theorem may read a specific outcome into `none` only at inputs where the
built-in's behaviour is known (the theorems below evaluate this model only at
absent/empty values, at `[]`-spelling texts, and at the syntactically invalid
text `oops`, on which `JSON.parse` throws). -/
def parseWeakJson (l : Str) : Option (List Int) :=
  match l.dropWhile isWS with
  | '[' :: rest =>
    match rest.dropWhile isWS with
    | ']' :: rest2 => if (rest2.dropWhile isWS).isEmpty then some [] else none
    | body => jsonIntsAux (body.length + 1) body []
  | _ => none

/-- Every read of the persisted weak set in the source
(`JSON.parse(localStorage.getItem("weakWords") || "[]")`, src/app.js lines
299, 556, 687, 694, 704): an absent (`none`) or empty stored value falls back
to the literal `"[]"`; the result of `JSON.parse` on the chosen text. -/
def readWeakWords (stored : Option Str) : Option (List Int) :=
  let raw := match stored with
    | none => "[]".data
    | some s => if s.isEmpty then "[]".data else s
  parseWeakJson raw

/-! ### Helper lemmas about `trim` -/

theorem dropWhile_of_head_not {p : Char → Bool} {h : Char} {t : Str} (hh : p h = false) :
    (h :: t).dropWhile p = h :: t := by
  simp [List.dropWhile, hh]

theorem trim_eq_rdrop (l : Str) : trim l = List.rdropWhile isWS (l.dropWhile isWS) := rfl

theorem dropWhile_trim (l : Str) : (trim l).dropWhile isWS = trim l := by
  rw [trim_eq_rdrop]
  obtain ⟨t, ht⟩ := List.rdropWhile_prefix isWS (l.dropWhile isWS)
  cases hm : List.rdropWhile isWS (l.dropWhile isWS) with
  | nil => simp
  | cons x m =>
    rw [hm] at ht
    have hx : isWS x = false := by
      have h0 := List.head?_dropWhile_not isWS l
      rw [← ht] at h0
      simpa using h0
    exact dropWhile_of_head_not hx

theorem trim_idem (l : Str) : trim (trim l) = trim l := by
  rw [trim_eq_rdrop (trim l), dropWhile_trim, trim_eq_rdrop l]
  exact List.rdropWhile_idempotent _ _

theorem mem_of_mem_trim {a : Char} {l : Str} (h : a ∈ trim l) : a ∈ l := by
  rw [trim_eq_rdrop] at h
  obtain ⟨t, ht⟩ := List.rdropWhile_prefix isWS (l.dropWhile isWS)
  obtain ⟨u, hu⟩ := List.dropWhile_suffix (l := l) isWS
  have h1 : a ∈ l.dropWhile isWS := by
    rw [← ht]; exact List.mem_append_left _ h
  rw [← hu]; exact List.mem_append_right _ h1

/-! ### Helper lemmas about the tokenizer -/

theorem tokAux_trimmed : ∀ (l cur : Str) (inQ : Bool) (parts : List Str),
    (∀ f ∈ parts, trim f = f) → ∀ f ∈ tokAux l cur inQ parts, trim f = f := by
  intro l
  induction l with
  | nil =>
    intro cur inQ parts hp f hf
    simp only [tokAux] at hf
    by_cases hc : cur.isEmpty
    · rw [if_pos hc] at hf; exact hp f hf
    · rw [if_neg hc] at hf
      rcases List.mem_append.mp hf with h | h
      · exact hp f h
      · simp only [List.mem_singleton] at h
        rw [h]; exact trim_idem cur
  | cons c rest ih =>
    intro cur inQ parts hp f hf
    simp only [tokAux] at hf
    by_cases hq : c = '"'
    · rw [if_pos hq] at hf; exact ih cur (!inQ) parts hp f hf
    · rw [if_neg hq] at hf
      by_cases hcomma : (c = ',' && !inQ) = true
      · rw [if_pos hcomma] at hf
        refine ih [] inQ (parts ++ [trim cur]) ?_ f hf
        intro g hg
        rcases List.mem_append.mp hg with h | h
        · exact hp g h
        · simp only [List.mem_singleton] at h
          rw [h]; exact trim_idem cur
      · rw [if_neg hcomma] at hf
        exact ih (cur ++ [c]) inQ parts hp f hf

theorem tokAux_noquote : ∀ (l cur : Str) (inQ : Bool) (parts : List Str),
    (∀ f ∈ parts, '"' ∉ f) → '"' ∉ cur → ∀ f ∈ tokAux l cur inQ parts, '"' ∉ f := by
  intro l
  induction l with
  | nil =>
    intro cur inQ parts hp hcur f hf
    simp only [tokAux] at hf
    by_cases hc : cur.isEmpty
    · rw [if_pos hc] at hf; exact hp f hf
    · rw [if_neg hc] at hf
      rcases List.mem_append.mp hf with h | h
      · exact hp f h
      · simp only [List.mem_singleton] at h
        rw [h]; intro hmem; exact hcur (mem_of_mem_trim hmem)
  | cons c rest ih =>
    intro cur inQ parts hp hcur f hf
    simp only [tokAux] at hf
    by_cases hq : c = '"'
    · rw [if_pos hq] at hf; exact ih cur (!inQ) parts hp hcur f hf
    · rw [if_neg hq] at hf
      by_cases hcomma : (c = ',' && !inQ) = true
      · rw [if_pos hcomma] at hf
        refine ih [] inQ (parts ++ [trim cur]) ?_ (by simp) f hf
        intro g hg
        rcases List.mem_append.mp hg with h | h
        · exact hp g h
        · simp only [List.mem_singleton] at h
          rw [h]; intro hmem; exact hcur (mem_of_mem_trim hmem)
      · rw [if_neg hcomma] at hf
        refine ih (cur ++ [c]) inQ parts hp ?_ f hf
        intro hmem
        rcases List.mem_append.mp hmem with h | h
        · exact hcur h
        · simp only [List.mem_singleton] at h
          exact hq h.symm

theorem splitChar_ne_nil (sep : Char) (l : Str) : splitChar sep l ≠ [] := by
  cases l with
  | nil => simp [splitChar]
  | cons c rest =>
    simp only [splitChar]
    by_cases h : c = sep
    · simp [h]
    · rw [if_neg h]
      cases hs : splitChar sep rest <;> simp

/-- `consHead cur segs` glues `cur` onto the first segment. -/
def consHead (cur : Str) : List Str → List Str
  | [] => [cur]
  | s :: ss => (cur ++ s) :: ss

/-- Shared final step of `refFields`. -/
def finishFields (segs : List Str) : List Str := (dropFinalEmpty segs).map trim

theorem finishFields_cons {ss : List Str} (x : Str) (h : ss ≠ []) :
    finishFields (x :: ss) = trim x :: finishFields ss := by
  obtain ⟨s, ss', rfl⟩ := List.exists_cons_of_ne_nil h
  simp only [finishFields, dropFinalEmpty, List.getLast?_cons_cons]
  cases hlast : (s :: ss').getLast? with
  | none => simp at hlast
  | some seg =>
    cases seg with
    | nil => simp [List.dropLast_cons₂]
    | cons a b => simp

theorem splitChar_cons_ne (sep c : Char) (rest : Str) (h : c ≠ sep) :
    splitChar sep (c :: rest) = consHead [c] (splitChar sep rest) := by
  simp only [splitChar, if_neg h]
  cases hs : splitChar sep rest with
  | nil => exact absurd hs (splitChar_ne_nil sep rest)
  | cons s ss => simp [consHead]

theorem consHead_consHead (cur x : Str) (segs : List Str) :
    consHead cur (consHead x segs) = consHead (cur ++ x) segs := by
  cases segs <;> simp [consHead, List.append_assoc]

/-- On a quote-free line the tokenizer loop is exactly: split on commas, trim
every field, drop a trailing raw-empty field. -/
theorem tokAux_eq_finish : ∀ (l : Str), (∀ c ∈ l, c ≠ '"') → ∀ (cur : Str) (parts : List Str),
    tokAux l cur false parts = parts ++ finishFields (consHead cur (splitChar ',' l)) := by
  intro l
  induction l with
  | nil =>
    intro _ cur parts
    simp only [tokAux, splitChar, consHead]
    by_cases hc : cur.isEmpty
    · have hcur : cur = [] := by simpa [List.isEmpty_iff] using hc
      subst hcur
      simp [finishFields, dropFinalEmpty]
    · have hcur : cur ≠ [] := by simpa [List.isEmpty_iff] using hc
      rw [if_neg hc]
      have : finishFields [cur ++ []] = [trim cur] := by
        simp only [List.append_nil, finishFields, dropFinalEmpty, List.getLast?_singleton]
        cases hcc : cur with
        | nil => exact absurd hcc hcur
        | cons a b => simp
      rw [this]
  | cons c rest ih =>
    intro hnq cur parts
    have hc : c ≠ '"' := hnq c (List.mem_cons_self c rest)
    have hrest : ∀ x ∈ rest, x ≠ '"' := fun x hx => hnq x (List.mem_cons_of_mem c hx)
    simp only [tokAux, if_neg hc]
    by_cases hcomma : c = ','
    · subst hcomma
      rw [if_pos (by simp)]
      rw [ih hrest [] (parts ++ [trim cur])]
      have hsplit : splitChar ',' (',' :: rest) = [] :: splitChar ',' rest := by
        simp [splitChar]
      rw [hsplit]
      obtain ⟨s, ss, hss⟩ := List.exists_cons_of_ne_nil (splitChar_ne_nil ',' rest)
      rw [hss]
      simp only [consHead, List.nil_append, List.append_nil]
      rw [finishFields_cons (cur) (by simp)]
      simp
    · rw [if_neg (by simp [hcomma])]
      rw [ih hrest (cur ++ [c]) parts]
      rw [splitChar_cons_ne ',' c rest hcomma, consHead_consHead]

/-- The tokenizer on a quote-free line equals the reference split. -/
theorem tokenize_noquote (l : Str) (h : ∀ c ∈ l, c ≠ '"') : tokenize l = refFields l := by
  rw [tokenize, tokAux_eq_finish l h [] []]
  obtain ⟨s, ss, hss⟩ := List.exists_cons_of_ne_nil (splitChar_ne_nil ',' l)
  simp only [List.nil_append, refFields]
  rw [hss]
  simp [consHead, finishFields]

theorem splitChar_length (sep : Char) (l : Str) :
    (splitChar sep l).length = l.count sep + 1 := by
  induction l with
  | nil => simp [splitChar]
  | cons c rest ih =>
    by_cases h : c = sep
    · subst h
      simp [splitChar, List.count_cons, ih]
    · rw [splitChar_cons_ne sep c rest h]
      obtain ⟨s, ss, hss⟩ := List.exists_cons_of_ne_nil (splitChar_ne_nil sep rest)
      rw [hss]
      simp only [consHead, List.length_cons]
      rw [hss] at ih
      simp only [List.length_cons] at ih
      simp [List.count_cons, h, ih]

theorem splitChar_cons_self (sep : Char) (rest : Str) :
    splitChar sep (sep :: rest) = [] :: splitChar sep rest := by
  simp [splitChar]

theorem splitChar_concat_sep (sep : Char) (l : Str) :
    splitChar sep (l ++ [sep]) = splitChar sep l ++ [[]] := by
  induction l with
  | nil => simp [splitChar]
  | cons c rest ih =>
    by_cases h : c = sep
    · subst h
      rw [List.cons_append, splitChar_cons_self, splitChar_cons_self, ih, List.cons_append]
    · rw [List.cons_append, splitChar_cons_ne sep c (rest ++ [sep]) h,
        splitChar_cons_ne sep c rest h, ih]
      obtain ⟨s, ss, hss⟩ := List.exists_cons_of_ne_nil (splitChar_ne_nil sep rest)
      rw [hss]
      simp [consHead]

/-! ### Helper lemmas about choices, parsing and session building -/

theorem pickLoop_shape : ∀ (cands picks : List VocabEntry) (used : List Int),
    ∃ extra, pickLoop cands picks used = picks ++ extra ∧ ∀ x ∈ extra, x ∈ cands := by
  intro cands
  induction cands with
  | nil => intro picks used; exact ⟨[], by simp [pickLoop]⟩
  | cons c rest ih =>
    intro picks used
    simp only [pickLoop]
    by_cases h4 : 4 ≤ picks.length
    · rw [if_pos h4]; exact ⟨[], by simp⟩
    · rw [if_neg h4]
      by_cases hused : used.contains c.number
      · rw [if_pos hused]
        obtain ⟨extra, h1, h2⟩ := ih picks used
        exact ⟨extra, h1, fun x hx => List.mem_cons_of_mem c (h2 x hx)⟩
      · rw [if_neg hused]
        obtain ⟨extra, h1, h2⟩ := ih (picks ++ [c]) (used ++ [c.number])
        refine ⟨c :: extra, by rw [h1]; simp, fun x hx => ?_⟩
        rcases List.mem_cons.mp hx with h | h
        · rw [h]; exact List.mem_cons_self c rest
        · exact List.mem_cons_of_mem c (h2 x h)

theorem parseVocabLine_none (line : Str)
    (h : parseIntJS ((tokenize line).getD 0 []) = none) : parseVocabLine line = none := by
  rw [parseVocabLine]
  by_cases hb : (trim line).isEmpty
  · rw [if_pos hb]
  · rw [if_neg hb]
    simp only [h]

theorem parseGrammarLine_none (line : Str)
    (h : parseIntJS ((tokenize line).getD 0 []) = none) : parseGrammarLine line = none := by
  rw [parseGrammarLine]
  by_cases hb : (trim line).isEmpty
  · rw [if_pos hb]
  · rw [if_neg hb]
    simp only [h]

theorem parseVocabLine_number {line : Str} {r : VocabEntry}
    (h : parseVocabLine line = some r) :
    parseIntJS ((tokenize line).getD 0 []) = some r.number := by
  rw [parseVocabLine] at h
  by_cases hb : (trim line).isEmpty
  · rw [if_pos hb] at h; exact absurd h (by simp)
  · rw [if_neg hb] at h
    simp only at h
    cases hint : parseIntJS ((tokenize line).getD 0 []) with
    | none => rw [hint] at h; exact absurd h (by simp)
    | some num =>
      rw [hint] at h
      simp only at h
      by_cases hm : (((tokenize line).drop 2).filter (fun m => !m.isEmpty)).isEmpty
      · rw [if_pos hm] at h; exact absurd h (by simp)
      · rw [if_neg hm] at h
        have := Option.some.inj h
        rw [← this]

theorem parseGrammarLine_number {line : Str} {g : GrammarEntry}
    (h : parseGrammarLine line = some g) :
    parseIntJS ((tokenize line).getD 0 []) = some g.number := by
  rw [parseGrammarLine] at h
  by_cases hb : (trim line).isEmpty
  · rw [if_pos hb] at h; exact absurd h (by simp)
  · rw [if_neg hb] at h
    simp only at h
    cases hint : parseIntJS ((tokenize line).getD 0 []) with
    | none => rw [hint] at h; exact absurd h (by simp)
    | some num =>
      rw [hint] at h
      simp only at h
      by_cases hlen : 6 ≤ (tokenize line).length
      · rw [if_pos hlen] at h
        have := Option.some.inj h
        rw [← this]
      · rw [if_neg hlen] at h; exact absurd h (by simp)

theorem parseGrammarLine_choices {line : Str} {g : GrammarEntry}
    (h : parseGrammarLine line = some g) : ∃ ds, g.choices = g.correct :: ds := by
  rw [parseGrammarLine] at h
  by_cases hb : (trim line).isEmpty
  · rw [if_pos hb] at h; exact absurd h (by simp)
  · rw [if_neg hb] at h
    simp only at h
    cases hint : parseIntJS ((tokenize line).getD 0 []) with
    | none => rw [hint] at h; exact absurd h (by simp)
    | some num =>
      rw [hint] at h
      simp only at h
      by_cases hlen : 6 ≤ (tokenize line).length
      · rw [if_pos hlen] at h
        have := Option.some.inj h
        rw [← this]
        exact ⟨_, rfl⟩
      · rw [if_neg hlen] at h; exact absurd h (by simp)

theorem mem_filteredVocab {entries : List VocabEntry} {weakMode : Bool}
    {weakIds : List Int} {s e : Option Int} {x : VocabEntry}
    (h : x ∈ filteredVocab entries weakMode weakIds s e) :
    x ∈ entries ∧ vocabPred weakMode weakIds s e x := by
  rw [filteredVocab.eq_def] at h
  rw [vocabPred.eq_def]
  cases weakMode with
  | true =>
    rw [if_pos rfl] at h
    obtain ⟨h1, h2⟩ := List.mem_filter.mp h
    simp only [if_pos rfl]
    exact ⟨h1, by simpa using h2⟩
  | false =>
    rw [if_neg (by simp)] at h
    simp only [if_neg (show ¬(false = true) by simp)]
    cases s with
    | none =>
      cases e with
      | none => exact ⟨h, by simp, by simp⟩
      | some ev =>
        obtain ⟨h1, h2⟩ := List.mem_filter.mp h
        exact ⟨h1, by simp, by intro v hv; cases hv; simpa using h2⟩
    | some sv =>
      cases e with
      | none =>
        obtain ⟨h1, h2⟩ := List.mem_filter.mp h
        exact ⟨h1, by intro v hv; cases hv; simpa using h2, by simp⟩
      | some ev =>
        obtain ⟨h1, h2⟩ := List.mem_filter.mp h
        obtain ⟨h3, h4⟩ := List.mem_filter.mp h1
        exact ⟨h3, by intro v hv; cases hv; simpa using h4,
               by intro v hv; cases hv; simpa using h2⟩

theorem mem_filteredGrammar {entries : List GrammarEntry} {sel : Str} {x : GrammarEntry}
    (h : x ∈ filteredGrammar entries sel) : x ∈ entries ∧ grammarPred sel x := by
  rw [filteredGrammar] at h
  rw [grammarPred]
  cases hd : difficultyMap sel with
  | none => rw [hd] at h; exact ⟨h, by intro t ht; simp at ht⟩
  | some t =>
    rw [hd] at h
    obtain ⟨h1, h2⟩ := List.mem_filter.mp h
    refine ⟨h1, fun v hv => ?_⟩
    cases hv
    simpa using h2

theorem jsTake_subset {l : List α} {c : Int} : ∀ x ∈ jsTake l c, x ∈ l := by
  intro x hx
  rw [jsTake] at hx
  by_cases h : c < 0
  · rw [if_pos h] at hx; exact List.take_subset _ _ hx
  · rw [if_neg h] at hx; exact List.take_subset _ _ hx

theorem jsTake_length_le {l : List α} {c : Int} : (jsTake l c).length ≤ l.length := by
  rw [jsTake]
  by_cases h : c < 0
  · rw [if_pos h, List.length_take]; exact min_le_right _ _
  · rw [if_neg h, List.length_take]; exact min_le_right _ _

/-! ### Claim theorems -/

/-- C7: weak-item add is idempotent: adding an id already present leaves the
persisted list (and therefore its count) unchanged, so adding the same id
twice yields the same list as adding it once. -/
theorem weakAdd_idem (w : List Int) (n : Int) :
    weakAdd (weakAdd w n) n = weakAdd w n
    ∧ (weakAdd (weakAdd w n) n).length = (weakAdd w n).length := by
  have hmain : weakAdd (weakAdd w n) n = weakAdd w n := by
    by_cases h : n ∈ w
    · simp [weakAdd, h]
    · simp [weakAdd, h]
  exact ⟨hmain, by rw [hmain]⟩

/-- C6: once a question is graded (`answered = true`), any further
`handleAnswer` call — manual or a late timeout — is a no-op: the whole state
(score, missed list, weak list, position) is unchanged, in both modes. -/
theorem grade_once_noop :
    (∀ (idx : Int) (choices : List Choice) (entry : VocabEntry) (st : QuizState),
      st.answered = true → handleAnswerVocab idx choices entry st = st)
    ∧ (∀ (idx : Int) (choices : List Str) (entry : GrammarEntry) (st : QuizState),
      st.answered = true → handleAnswerGrammar idx choices entry st = st) := by
  constructor
  · intro idx choices entry st h
    simp [handleAnswerVocab, h]
  · intro idx choices entry st h
    simp [handleAnswerGrammar, h]

theorem grade_once_noop_witness :
    handleAnswerVocab 0 [] ⟨1, "a".data, ["m".data]⟩
        ⟨0, 0, [], true, []⟩ = ⟨0, 0, [], true, []⟩
    ∧ handleAnswerGrammar (-1) [] ⟨1, "q".data, "a".data, ["a".data], [], [], []⟩
        ⟨2, 1, [], true, [5]⟩ = ⟨2, 1, [], true, [5]⟩ :=
  ⟨grade_once_noop.1 0 [] ⟨1, "a".data, ["m".data]⟩ ⟨0, 0, [], true, []⟩ rfl,
   grade_once_noop.2 (-1) [] ⟨1, "q".data, "a".data, ["a".data], [], [], []⟩
     ⟨2, 1, [], true, [5]⟩ rfl⟩

/-- C5: grading a timeout (sentinel `-1`, matching no option) produces exactly
the grading effects of a manually selected wrong answer: the two calls yield
equal states, and that state has the score unchanged, the missed pair
appended, and (vocabulary only) the record id inserted into the weak list. -/
theorem timeout_matches_wrong :
    (∀ (idx : Int) (choices : List Choice) (entry : VocabEntry) (st : QuizState)
       (c : Choice), st.answered = false → selectedChoice choices idx = some c →
       c.entry ≠ entry →
       handleAnswerVocab idx choices entry st = handleAnswerVocab (-1) choices entry st)
    ∧ (∀ (choices : List Choice) (entry : VocabEntry) (st : QuizState),
       st.answered = false →
       handleAnswerVocab (-1) choices entry st =
         { st with answered := true
                 , wrongAnswers := st.wrongAnswers ++
                     [Wrong.vocab entry.english (correctChoiceDisplay choices entry)]
                 , weakIds := weakAdd st.weakIds entry.number })
    ∧ (∀ (idx : Int) (choices : List Str) (entry : GrammarEntry) (st : QuizState)
       (s : Str), st.answered = false → grammarSelected choices idx = some s →
       s ≠ entry.correct →
       handleAnswerGrammar idx choices entry st = handleAnswerGrammar (-1) choices entry st)
    ∧ (∀ (choices : List Str) (entry : GrammarEntry) (st : QuizState),
       st.answered = false →
       handleAnswerGrammar (-1) choices entry st =
         { st with answered := true
                 , wrongAnswers := st.wrongAnswers ++
                     [Wrong.grammar entry.question entry.correct] }) := by
  have hselv : ∀ choices : List Choice, selectedChoice choices (-1) = none := by
    intro choices; simp [selectedChoice]
  have hselg : ∀ choices : List Str, grammarSelected choices (-1) = none := by
    intro choices; simp [grammarSelected]
  refine ⟨?_, ?_, ?_, ?_⟩
  · intro idx choices entry st c hans hsel hne
    simp [handleAnswerVocab, hans, hsel, hselv, hne]
  · intro choices entry st hans
    simp [handleAnswerVocab, hans, hselv]
  · intro idx choices entry st s hans hsel hne
    simp [handleAnswerGrammar, hans, hsel, hselg, hne]
  · intro choices entry st hans
    simp [handleAnswerGrammar, hans, hselg]

theorem timeout_matches_wrong_witness :
    handleAnswerVocab 0
        [⟨⟨2, "b".data, ["x".data]⟩, "x".data⟩, ⟨⟨1, "a".data, ["m".data]⟩, "m".data⟩]
        ⟨1, "a".data, ["m".data]⟩ ⟨0, 0, [], false, []⟩ =
      handleAnswerVocab (-1)
        [⟨⟨2, "b".data, ["x".data]⟩, "x".data⟩, ⟨⟨1, "a".data, ["m".data]⟩, "m".data⟩]
        ⟨1, "a".data, ["m".data]⟩ ⟨0, 0, [], false, []⟩
    ∧ handleAnswerGrammar 1 ["go".data, "went".data]
        ⟨1, "q".data, "go".data, ["go".data, "went".data], [], [], []⟩
        ⟨0, 0, [], false, []⟩ =
      handleAnswerGrammar (-1) ["go".data, "went".data]
        ⟨1, "q".data, "go".data, ["go".data, "went".data], [], [], []⟩
        ⟨0, 0, [], false, []⟩ :=
  ⟨timeout_matches_wrong.1 0
      [⟨⟨2, "b".data, ["x".data]⟩, "x".data⟩, ⟨⟨1, "a".data, ["m".data]⟩, "m".data⟩]
      ⟨1, "a".data, ["m".data]⟩ ⟨0, 0, [], false, []⟩
      ⟨⟨2, "b".data, ["x".data]⟩, "x".data⟩ rfl (by decide) (by decide),
   timeout_matches_wrong.2.2.1 1 ["go".data, "went".data]
      ⟨1, "q".data, "go".data, ["go".data, "went".data], [], [], []⟩
      ⟨0, 0, [], false, []⟩ "went".data rfl (by decide) (by decide)⟩

/-- C10: presenting a grammar question never starts the per-question timer and
hides the timer bar, so the timeout grading path can never fire for a grammar
question; presenting a vocabulary question with a positive time limit does
start the timer. -/
theorem grammar_never_timed :
    (∀ (g : GrammarEntry) (shuffledChoices : List Str),
      (loadQuestionEffGrammar g shuffledChoices).timerStarted = false
      ∧ (loadQuestionEffGrammar g shuffledChoices).timerBarHidden = true)
    ∧ (∀ (v : VocabEntry) (choicesData : List Choice) (timeLimit : Int),
      0 < timeLimit →
      (loadQuestionEffVocab v choicesData timeLimit).timerStarted = true) := by
  constructor
  · intro g shuffledChoices
    exact ⟨rfl, rfl⟩
  · intro v choicesData timeLimit h
    simp [loadQuestionEffVocab, startTimerEff, not_le.mpr h]

theorem grammar_never_timed_witness :
    (loadQuestionEffVocab ⟨1, "a".data, ["m".data]⟩ [] 5).timerStarted = true
    ∧ (loadQuestionEffGrammar ⟨1, "q".data, "a".data, ["a".data], [], [], []⟩
        []).timerStarted = false :=
  ⟨grammar_never_timed.2 ⟨1, "a".data, ["m".data]⟩ [] 5 (by decide),
   (grammar_never_timed.1 ⟨1, "q".data, "a".data, ["a".data], [], [], []⟩ []).1⟩

/-- C8 counterexample: the claim says an absent *or malformed* stored value
makes every read of the weak set yield the empty/neutral state rather than
raising an error; but on the malformed stored value `"oops"` the read fails
(`JSON.parse` throws), it does not yield the empty set. -/
theorem weakRead_malformed_not_empty :
    readWeakWords (some "oops".data) = none
    ∧ readWeakWords (some "oops".data) ≠ some ([] : List Int) := by
  constructor
  · rfl
  · decide

/-- C8 (amended): an absent (or empty-string) stored value makes every read of
the weak set yield the empty set; but not every malformed stored value
defaults to that state: on the stored text `oops`, which is not valid JSON,
the read does not yield the empty set (`JSON.parse` throws there). -/
theorem weakRead_absent_empty :
    readWeakWords none = some []
    ∧ readWeakWords (some []) = some []
    ∧ readWeakWords (some "oops".data) ≠ some ([] : List Int) := by
  refine ⟨rfl, rfl, ?_⟩
  decide

/-- C2: a line whose first tokenized field does not parse as an integer
produces no record and its being dropped never aborts the rest of the batch
(`loadCsv` of the remaining lines is unchanged); conversely every record in
the output comes from a line of the input whose field 0 parses as an integer
— namely the record's id. -/
theorem parse_requires_int_id :
    (∀ line : Str, parseIntJS ((tokenize line).getD 0 []) = none →
      parseVocabLine line = none ∧ parseGrammarLine line = none)
    ∧ (∀ (line : Str) (rest : List Str), parseVocabLine line = none →
      loadCsvVocab (line :: rest) = loadCsvVocab rest)
    ∧ (∀ (line : Str) (rest : List Str), parseGrammarLine line = none →
      loadCsvGrammar (line :: rest) = loadCsvGrammar rest)
    ∧ (∀ (lines : List Str) (r : VocabEntry), r ∈ loadCsvVocab lines →
      ∃ line ∈ lines, parseVocabLine line = some r
        ∧ parseIntJS ((tokenize line).getD 0 []) = some r.number)
    ∧ (∀ (lines : List Str) (g : GrammarEntry), g ∈ loadCsvGrammar lines →
      ∃ line ∈ lines, parseGrammarLine line = some g
        ∧ parseIntJS ((tokenize line).getD 0 []) = some g.number) := by
  refine ⟨?_, ?_, ?_, ?_, ?_⟩
  · intro line h
    exact ⟨parseVocabLine_none line h, parseGrammarLine_none line h⟩
  · intro line rest h
    simp [loadCsvVocab, List.filterMap_cons, h]
  · intro line rest h
    simp [loadCsvGrammar, List.filterMap_cons, h]
  · intro lines r hr
    obtain ⟨line, hmem, hparse⟩ := List.mem_filterMap.mp hr
    exact ⟨line, hmem, hparse, parseVocabLine_number hparse⟩
  · intro lines g hg
    obtain ⟨line, hmem, hparse⟩ := List.mem_filterMap.mp hg
    exact ⟨line, hmem, hparse, parseGrammarLine_number hparse⟩

theorem parse_requires_int_id_witness :
    (parseVocabLine "id,word,meaning".data = none
      ∧ parseGrammarLine "id,word,meaning".data = none)
    ∧ loadCsvVocab ["id,word,meaning".data, "1,apple,fruit".data] =
        loadCsvVocab ["1,apple,fruit".data] :=
  ⟨parse_requires_int_id.1 "id,word,meaning".data rfl,
   parse_requires_int_id.2.1 "id,word,meaning".data ["1,apple,fruit".data]
     (parse_requires_int_id.1 "id,word,meaning".data rfl).1⟩

/-- C3: every field the tokenizer outputs is already trimmed and never
contains a quote character; on quote-free lines the tokenizer is exactly
"split on commas then trim" (with the code's trailing-raw-empty drop), and a
quoted field keeps its commas literally, as the concrete quoted line shows. -/
theorem tokenize_quote_aware :
    (∀ (line f : Str), f ∈ tokenize line → trim f = f)
    ∧ (∀ (line f : Str), f ∈ tokenize line → '"' ∉ f)
    ∧ (∀ line : Str, (∀ c ∈ line, c ≠ '"') → tokenize line = refFields line)
    ∧ tokenize "a,\"b,c\",d".data = ["a".data, "b,c".data, "d".data] := by
  refine ⟨?_, ?_, ?_, by decide⟩
  · intro line f hf
    exact tokAux_trimmed line [] false [] (by simp) f hf
  · intro line f hf
    exact tokAux_noquote line [] false [] (by simp) (by simp) f hf
  · intro line h
    exact tokenize_noquote line h

theorem tokenize_quote_aware_witness :
    trim "a b".data = "a b".data
    ∧ ('"' ∉ "bc".data)
    ∧ tokenize "x, y,".data = refFields "x, y,".data := by
  refine ⟨?_, ?_, ?_⟩
  · exact tokenize_quote_aware.1 " a b ,z".data "a b".data (by decide)
  · exact tokenize_quote_aware.2.1 "a,bc".data "bc".data (by decide)
  · exact tokenize_quote_aware.2.2.1 "x, y,".data (by decide)

/-- C9: the tokenizer emits empty fields between consecutive commas but drops
a final field that is empty after the last comma: a quote-free line ending in
a comma yields exactly as many fields as it has commas (one fewer than comma
count plus one); consequently the grammar line `1,q,a,b,c,` tokenizes to five
fields and is dropped by the minimum-six-fields rule. -/
theorem tokenize_trailing_comma :
    tokenize "1,,3".data = ["1".data, [], "3".data]
    ∧ (∀ pre : Str, (∀ c ∈ pre, c ≠ '"') →
        (tokenize (pre ++ [','])).length = (pre ++ [',']).count ',')
    ∧ (tokenize "1,q,a,b,c,".data).length = 5
    ∧ parseGrammarLine "1,q,a,b,c,".data = none := by
  refine ⟨by decide, ?_, by decide, by decide⟩
  intro pre hnq
  have hnq2 : ∀ c ∈ pre ++ [','], c ≠ '"' := by
    intro c hc
    rcases List.mem_append.mp hc with h | h
    · exact hnq c h
    · simp only [List.mem_singleton] at h
      rw [h]; decide
  rw [tokenize_noquote _ hnq2, refFields, splitChar_concat_sep]
  have hdrop : dropFinalEmpty (splitChar ',' pre ++ [[]]) = splitChar ',' pre := by
    rw [dropFinalEmpty]
    rw [List.getLast?_concat]
    simp
  rw [hdrop, List.length_map, splitChar_length, List.count_append]
  simp

theorem tokenize_trailing_comma_witness :
    (tokenize ("ab".data ++ [','])).length = ("ab".data ++ [',']).count ',' :=
  tokenize_trailing_comma.2.1 "ab".data (by decide)

/-- C4: in every successfully built session the item list is drawn from the
filtered records (`1 ≤ items.length ≤ max count available`, every item is one
of the input records and satisfies the active filter predicate — weak-only
membership, id range, or difficulty tier), and the requested count defaults to
20 when non-numeric. -/
theorem session_build_bounds :
    (∀ (entries : List VocabEntry) (weakMode : Bool) (weakIds : List Int)
       (s e : Option Int) (count : Int) (shuffled items : List VocabEntry),
      shuffled.Perm (filteredVocab entries weakMode weakIds s e) →
      buildVocabSession entries weakMode weakIds s e count shuffled = some items →
      1 ≤ items.length
      ∧ (items.length : Int) ≤
          max count ((filteredVocab entries weakMode weakIds s e).length : Int)
      ∧ ∀ x ∈ items, x ∈ entries ∧ vocabPred weakMode weakIds s e x)
    ∧ (∀ (entries : List GrammarEntry) (sel : Str) (count : Int)
       (shuffled items : List GrammarEntry),
      shuffled.Perm (filteredGrammar entries sel) →
      buildGrammarSession entries sel count shuffled = some items →
      1 ≤ items.length
      ∧ (items.length : Int) ≤ max count ((filteredGrammar entries sel).length : Int)
      ∧ ∀ x ∈ items, x ∈ entries ∧ grammarPred sel x)
    ∧ sessionCount none = 20 := by
  refine ⟨?_, ?_, rfl⟩
  · intro entries weakMode weakIds s e count shuffled items hperm hbuild
    rw [buildVocabSession] at hbuild
    simp only at hbuild
    by_cases h1 : (weakMode && (filteredVocab entries weakMode weakIds s e).isEmpty) = true
    · rw [if_pos h1] at hbuild; exact absurd hbuild (by simp)
    · rw [if_neg h1] at hbuild
      by_cases h2 : (jsTake shuffled count).isEmpty
      · rw [if_pos h2] at hbuild; exact absurd hbuild (by simp)
      · rw [if_neg h2] at hbuild
        have hitems : items = jsTake shuffled count := (Option.some.inj hbuild).symm
        subst hitems
        have hne : jsTake shuffled count ≠ [] := by
          intro hcon; rw [hcon] at h2; exact h2 rfl
        refine ⟨List.length_pos.mpr hne, ?_, ?_⟩
        · have hlen : (jsTake shuffled count).length ≤
              (filteredVocab entries weakMode weakIds s e).length := by
            calc (jsTake shuffled count).length ≤ shuffled.length := jsTake_length_le
            _ = (filteredVocab entries weakMode weakIds s e).length := hperm.length_eq
          exact le_trans (Int.ofNat_le.mpr hlen) (le_max_right _ _)
        · intro x hx
          have hx2 : x ∈ shuffled := jsTake_subset x hx
          have hx3 : x ∈ filteredVocab entries weakMode weakIds s e :=
            (hperm.mem_iff).mp hx2
          exact mem_filteredVocab hx3
  · intro entries sel count shuffled items hperm hbuild
    rw [buildGrammarSession] at hbuild
    simp only at hbuild
    by_cases h1 : (filteredGrammar entries sel).isEmpty = true
    · rw [if_pos h1] at hbuild; exact absurd hbuild (by simp)
    · rw [if_neg h1] at hbuild
      by_cases h2 : (jsTake shuffled count).isEmpty
      · rw [if_pos h2] at hbuild; exact absurd hbuild (by simp)
      · rw [if_neg h2] at hbuild
        have hitems : items = jsTake shuffled count := (Option.some.inj hbuild).symm
        subst hitems
        have hne : jsTake shuffled count ≠ [] := by
          intro hcon; rw [hcon] at h2; exact h2 rfl
        refine ⟨List.length_pos.mpr hne, ?_, ?_⟩
        · have hlen : (jsTake shuffled count).length ≤ (filteredGrammar entries sel).length := by
            calc (jsTake shuffled count).length ≤ shuffled.length := jsTake_length_le
            _ = (filteredGrammar entries sel).length := hperm.length_eq
          exact le_trans (Int.ofNat_le.mpr hlen) (le_max_right _ _)
        · intro x hx
          have hx2 : x ∈ shuffled := jsTake_subset x hx
          have hx3 : x ∈ filteredGrammar entries sel := (hperm.mem_iff).mp hx2
          exact mem_filteredGrammar hx3

theorem session_build_bounds_witness :
    1 ≤ ([(⟨1, "a".data, ["m".data]⟩ : VocabEntry)] : List VocabEntry).length
    ∧ 1 ≤ ([(⟨1, "q".data, "a".data, ["a".data], [], "2".data, []⟩ : GrammarEntry)] :
        List GrammarEntry).length :=
  ⟨(session_build_bounds.1 [⟨1, "a".data, ["m".data]⟩] false [] none none 20
      [⟨1, "a".data, ["m".data]⟩] [⟨1, "a".data, ["m".data]⟩]
      (List.Perm.refl _) rfl).1,
   (session_build_bounds.2.1 [⟨1, "q".data, "a".data, ["a".data], [], "2".data, []⟩]
      "standard".data 20
      [⟨1, "q".data, "a".data, ["a".data], [], "2".data, []⟩]
      [⟨1, "q".data, "a".data, ["a".data], [], "2".data, []⟩]
      (List.Perm.refl _) rfl).1⟩

/-- C1: every graded question has exactly one correct option corresponding to
the session's current item: any shuffle of the vocabulary options built for
`entry` from candidates excluding its id contains exactly one option backed by
`entry`; and any shuffle of a parsed grammar record's option list contains
exactly one option equal to its correct answer, relying on the distractors
being disjoint by value from the correct answer. -/
theorem choice_unique_correct :
    (∀ (entry : VocabEntry) (allEntries shuffledCands : List VocabEntry)
       (finalChoices : List Choice),
      shuffledCands.Perm (allEntries.filter (fun e => e.number ≠ entry.number)) →
      finalChoices.Perm (vocabChoiceList entry shuffledCands) →
      finalChoices.countP (fun c => decide (c.entry = entry)) = 1)
    ∧ (∀ (line : Str) (g : GrammarEntry) (shuffled : List Str),
      parseGrammarLine line = some g →
      (∀ d ∈ g.choices.drop 1, d ≠ g.correct) →
      shuffled.Perm g.choices →
      shuffled.countP (fun c => decide (c = g.correct)) = 1) := by
  constructor
  · intro entry allEntries shuffledCands finalChoices hcands hfinal
    rw [hfinal.countP_eq, vocabChoiceList, List.countP_map]
    obtain ⟨extra, heq, hsub⟩ := pickLoop_shape shuffledCands [entry] [entry.number]
    rw [heq, List.countP_append]
    have h1 : List.countP ((fun c => decide (c.entry = entry)) ∘
        (fun e => (⟨e, displayOf e⟩ : Choice))) [entry] = 1 := by
      simp [List.countP_cons]
    have h2 : List.countP ((fun c => decide (c.entry = entry)) ∘
        (fun e => (⟨e, displayOf e⟩ : Choice))) extra = 0 := by
      rw [List.countP_eq_zero]
      intro a ha
      have ha2 : a ∈ shuffledCands := hsub a ha
      have ha3 := (hcands.mem_iff).mp ha2
      have ha4 := (List.mem_filter.mp ha3).2
      have ha5 : a.number ≠ entry.number := by simpa using ha4
      have ha6 : a ≠ entry := fun hcon => ha5 (by rw [hcon])
      simp [ha6]
    rw [h1, h2]
  · intro line g shuffled hparse hdisj hperm
    obtain ⟨ds, hch⟩ := parseGrammarLine_choices hparse
    rw [hperm.countP_eq, hch]
    rw [List.countP_cons_of_pos _ _ (by simp)]
    have h0 : List.countP (fun c => decide (c = g.correct)) ds = 0 := by
      rw [List.countP_eq_zero]
      intro d hd
      have : d ∈ g.choices.drop 1 := by rw [hch]; simpa using hd
      simpa using hdisj d this
    rw [h0]

theorem choice_unique_correct_witness :
    List.countP (fun c => decide (c.entry = (⟨1, "a".data, ["m".data]⟩ : VocabEntry)))
      (vocabChoiceList ⟨1, "a".data, ["m".data]⟩ [⟨2, "b".data, ["n".data]⟩]) = 1
    ∧ List.countP (fun c => decide (c = "a".data))
      ["a".data, "b".data, "c".data, "d".data] = 1 :=
  ⟨choice_unique_correct.1 ⟨1, "a".data, ["m".data]⟩
      [⟨1, "a".data, ["m".data]⟩, ⟨2, "b".data, ["n".data]⟩]
      [⟨2, "b".data, ["n".data]⟩]
      (vocabChoiceList ⟨1, "a".data, ["m".data]⟩ [⟨2, "b".data, ["n".data]⟩])
      (List.Perm.refl _) (List.Perm.refl _),
   choice_unique_correct.2
      "1,q,a,b,c,d".data
      ⟨1, "q".data, "a".data, ["a".data, "b".data, "c".data, "d".data], [], [], []⟩
      ["a".data, "b".data, "c".data, "d".data]
      (by decide) (by decide) (List.Perm.refl _)⟩
